import Mathlib

/-!
Shallow embedding of the Project-Chromkenstain repository
(`numeric_model.py` and `word2vec_model.py`) and proofs about it.

Conventions of the embedding:
* Python floats that only ever hold exact decimal fractions are modelled as `ℚ`;
* numpy arrays / Python lists are modelled as `List`; a numpy matrix that is
  written into cell-by-cell is modelled as a function `ℕ → _` updated with
  `Function.update`, and read back row-by-row at the end;
* Python's `int(x)` truncation toward zero is `py_int`;
* the slicing bound of `l[:k]` (which counts from the right when `k < 0`)
  is `py_slice_end`;
* fallible code (attribute access on `None`) returns `Option`.
-/

/-- Python `int(x)` applied to a real-valued expression: truncation toward 0. -/
def py_int (x : ℚ) : ℤ := if 0 ≤ x then ⌊x⌋ else -⌊-x⌋

/-- Effective element count selected by the Python slice `l[:k]` on a list of
length `n`: a negative `k` counts from the right, a nonnegative `k` is used
as is (`List.take` clamps at `n` exactly as Python does). -/
def py_slice_end (k : ℤ) (n : ℕ) : ℕ := if k < 0 then ((n : ℤ) + k).toNat else k.toNat

namespace word2vec_model

/-- The part of a trained gensim `Word2Vec` model that the code uses:
`wv.vocab.keys()` (in dict order) and the per-token stored vector
`wv.get_vector`, modelled as a total map over the stored vocabulary. -/
structure W2VModel where
  vocab : List String
  wv : String → List ℚ

/-- The mutable attributes of a `PlayerEmbedding` object. -/
structure EmbState where
  MODEL : Option W2VModel
  NORMALIZED_VECTORS : Option (List (String × List ℚ))
  VEC_SIZE : ℕ

/-- A Python value that is either a plain integer or a numeric vector,
as returned by `get_player_vector`. -/
inductive PyValue where
  | intVal : ℤ → PyValue
  | vecVal : List ℚ → PyValue
deriving DecidableEq

/-- Source `get_player_vector`: returns the literal int `0` when
`self.MODEL == None`, else `self.MODEL.wv.get_vector(player_name)`. -/
def get_player_vector (st : EmbState) (player_name : String) : PyValue :=
  match st.MODEL with
  | none => .intVal 0
  | some m => .vecVal (m.wv player_name)

/-- Source `get_all_vectors`: a dict mapping each vocabulary token to its
vector, in vocabulary order. -/
def get_all_vectors (m : W2VModel) : List (String × List ℚ) :=
  m.vocab.map (fun player_name => (player_name, m.wv player_name))

/-- Value of `np.min` on a (nonempty) vector; `0` as a junk value on `[]`,
where numpy would raise. -/
def np_min : List ℚ → ℚ
  | [] => 0
  | x :: xs => xs.foldl min x

/-- Value of `np.max` on a (nonempty) vector; `0` as a junk value on `[]`. -/
def np_max : List ℚ → ℚ
  | [] => 0
  | x :: xs => xs.foldl max x

/-- The min/max scan of `normalize_all_vectors`: running pair
`(min_value, max_value)` initialized to `(0, 0)`, updated per vector by
`if min_v < min_value` / `if max_v > max_value` comparisons. -/
def nav_scan (vecs : List (List ℚ)) : ℚ × ℚ :=
  vecs.foldl
    (fun acc vec =>
      let min_v := np_min vec
      let max_v := np_max vec
      ((if min_v < acc.1 then min_v else acc.1),
       (if max_v > acc.2 then max_v else acc.2)))
    (0, 0)

/-- Source `normalize_all_vectors`: reads `get_all_vectors` off `self.MODEL`
(raising, i.e. `none`, when no model is loaded), scans for the global scalar
min/max starting from 0, rescales every vector elementwise by
`(v + abs(min)) / (max + abs(min))`, stores the mapping in
`NORMALIZED_VECTORS` and returns it. -/
def normalize_all_vectors (st : EmbState) :
    Option (EmbState × List (String × List ℚ)) :=
  match st.MODEL with
  | none => none
  | some m =>
    let all_vectors := get_all_vectors m
    let mm := nav_scan (all_vectors.map Prod.snd)
    let min_value := mm.1
    let max_value := mm.2
    let res := all_vectors.map
      (fun kv => (kv.1, kv.2.map (fun x => (x + |min_value|) / (max_value + |min_value|))))
    some ({ st with NORMALIZED_VECTORS := some res }, res)

/-- Denominator of the division performed by `normalize_vector`. -/
def normalize_denom (data_vector : List ℚ) : ℚ :=
  np_max data_vector + |np_min data_vector|

/-- Source `normalize_vector` (static): elementwise
`(data_vector + abs(min_v)) / (max_v + abs(min_v))`, with no guard on the
denominator. -/
def normalize_vector (data_vector : List ℚ) : List ℚ :=
  let min_v := np_min data_vector
  data_vector.map (fun x => (x + |min_v|) / normalize_denom data_vector)

/-- Fuel-driven count of hex digits of `n` (length of `hex(n)` without the
`0x` prefix, for `n ≥ 0`); the fuel `n` always suffices since the value
shrinks 16-fold per step. -/
def hexLenAux : ℕ → ℕ → ℕ
  | _, 0 => 1
  | n, fuel + 1 => if n < 16 then 1 else hexLenAux (n / 16) fuel + 1

/-- Number of hex digits of `n` (1 for `n = 0`). -/
def hexLen (n : ℕ) : ℕ := hexLenAux n n

/-- Red/green/blue triple that the loop body of `convert_to_rgb` extracts
from the scaled value `n`: the hex string is left-padded with `'0'` to
length at least 6 (total length `L = max 6 (hexLen n)`), and the slices
`[:2]`, `[2:4]`, `[4:]` of that string are parsed back as hex numbers. -/
def rgb_of (n : ℕ) : ℕ × ℕ × ℕ :=
  let L := max 6 (hexLen n)
  (n / 16 ^ (L - 2), n / 16 ^ (L - 4) % 256, n % 16 ^ (L - 4))

/-- Scaling step of `convert_to_rgb`: `int(x * 16777215)`. -/
def scale_value (x : ℚ) : ℤ := py_int (x * 16777215)

/-- The list `new_vec` of scaled integer values (hex strings of distinct
nonnegative integers are distinct, so the later `list_vec.index` lookup is
modelled as `List.indexOf` on these integers). -/
def scaled_list (vec : List ℚ) : List ℤ := vec.map scale_value

/-- One iteration of the write loop of `convert_to_rgb`: writes the RGB
triple of element `i` into the output row `list_vec.index(dim)`, i.e. the
row of the FIRST occurrence of element `i`'s scaled value. -/
def rgb_write (s : List ℤ) (acc : ℕ → ℕ × ℕ × ℕ) (i : ℕ) : ℕ → ℕ × ℕ × ℕ :=
  Function.update acc (s.indexOf (s.getD i 0)) (rgb_of (s.getD i 0).toNat)

/-- Source `convert_to_rgb`: a zero matrix of shape `(len vec, 3)` whose
rows are filled by `rgb_write` for each element in order, read back as a
list of triples. -/
def convert_to_rgb (vec : List ℚ) : List (ℕ × ℕ × ℕ) :=
  let s := scaled_list vec
  let final := (List.range vec.length).foldl (rgb_write s) (fun _ => (0, 0, 0))
  (List.range vec.length).map final

end word2vec_model

namespace numeric_model

/-- Cast of an integer value to a 64-bit signed integer (numpy/torch
`int64`): wraparound modulo `2 ^ 64`. -/
def toInt64 (z : ℤ) : ℤ := (z + 2 ^ 63) % 2 ^ 64 - 2 ^ 63

/-- Dense category code that pandas `astype('category')` assigns to the
value `x` within the column `col`: its rank among the sorted distinct
values of the column. -/
def denseCode (col : List ℤ) (x : ℤ) : ℤ :=
  ((col.dedup.filter (fun y => decide (y < x))).length : ℤ)

/-- Embedding dimensionality formula `min(50, (col_size + 1) // 2)`. -/
def emb_dim (col_size : ℕ) : ℕ := min 50 ((col_size + 1) / 2)

/-- The attributes produced by `define_learn_data` that concern the
categorical columns. -/
structure LearnState where
  emb_matrix : List (List ℤ)
  encoded_table : List (List ℤ)
  categorical_embedding_sizes : List (ℕ × ℕ)

/-- Source `define_learn_data`, restricted to the categorical columns
(given as a list of columns of raw integer-valued cells): `emb_matrix` is
stacked from the RAW column values and cast to `int64` first; only
afterwards is each column of the table converted to dense category codes;
the embedding sizes come from the per-column category counts. -/
def define_learn_data (cats : List (List ℤ)) : LearnState :=
  let emb_matrix := cats.map (fun col => col.map toInt64)
  let encoded_table := cats.map (fun col => col.map (denseCode col))
  let categorical_column_sizes := cats.map (fun col => col.dedup.length)
  { emb_matrix := emb_matrix
    encoded_table := encoded_table
    categorical_embedding_sizes :=
      categorical_column_sizes.map (fun col_size => (col_size, emb_dim col_size)) }

/-- Body of the row loop of `split_data`: row `i` is appended to the train
pair component if `i ∈ train_index_list`, else to the test component. -/
def split_step {α : Type} [Inhabited α] (rows : List α) (train_index_list : List ℕ)
    (acc : List α × List α) (match_i : ℕ) : List α × List α :=
  if match_i ∈ train_index_list then (acc.1 ++ [rows.getD match_i default], acc.2)
  else (acc.1, acc.2 ++ [rows.getD match_i default])

/-- Source `split_data`, applied to one matrix (the code applies the same
index-driven loop to `emb_matrix`, `numeric_matrix` and `RESULT` alike):
`train_matches = int((1-ratio)*total_matches)`; `train_index_list` is the
slice `index_list[:train_matches]` taken BEFORE the shuffle;
`random.shuffle(index_list)` permutes only `index_list` itself (modelled by
an arbitrary function `shuffle`, whose result the code never reads); the
loop then distributes the rows. -/
def split_data {α : Type} [Inhabited α] (rows : List α) ( ratio : ℚ)
    (shuffle : List ℕ → List ℕ) : List α × List α :=
  let total_matches := rows.length
  let train_matches := py_int ((1 - ratio) * total_matches)
  let index_list := List.range total_matches
  let train_index_list := index_list.take (py_slice_end train_matches total_matches)
  let _shuffled := shuffle index_list
  (List.range total_matches).foldl (split_step rows train_index_list) ([], [])

end numeric_model

/-!  Claim theorems. -/

open word2vec_model numeric_model

/-- C4: the computed embedding dimension for a categorical field of
cardinality `c` is `min 50 ((c + 1) / 2)`; cardinalities 1, 2, 50, 51, 100
yield 1, 1, 25, 26, 50, and the dimension never exceeds 50. -/
theorem C4_embedding_dim_formula :
    (∀ cats : List (List ℤ),
      (numeric_model.define_learn_data cats).categorical_embedding_sizes =
        (cats.map (fun col => col.dedup.length)).map
          (fun col_size => (col_size, min 50 ((col_size + 1) / 2)))) ∧
    numeric_model.emb_dim 1 = 1 ∧ numeric_model.emb_dim 2 = 1 ∧
    numeric_model.emb_dim 50 = 25 ∧ numeric_model.emb_dim 51 = 26 ∧
    numeric_model.emb_dim 100 = 50 ∧
    ∀ col_size : ℕ, numeric_model.emb_dim col_size ≤ 50 :=
  ⟨fun _ => rfl, rfl, rfl, rfl, rfl, rfl, fun _ => min_le_left _ _⟩

/-- C3: `emb_matrix` is the stack of the raw categorical column values cast
to `int64`, built before the dense category encoding is applied to the
table; on the concrete one-column table `[[5, 7]]` it differs from the
fitted dense codes `[[0, 1]]`. -/
theorem C3_emb_matrix_from_raw_values :
    (∀ cats : List (List ℤ),
      (numeric_model.define_learn_data cats).emb_matrix =
        cats.map (fun col => col.map numeric_model.toInt64)) ∧
    (numeric_model.define_learn_data [[5, 7]]).emb_matrix = [[5, 7]] ∧
    (numeric_model.define_learn_data [[5, 7]]).encoded_table = [[0, 1]] ∧
    (numeric_model.define_learn_data [[5, 7]]).emb_matrix ≠
      (numeric_model.define_learn_data [[5, 7]]).encoded_table := by
  refine ⟨fun _ => rfl, ?_, ?_, ?_⟩ <;> decide

/-- C6: `get_player_vector` returns the literal integer 0 for every player
name when no model is loaded, and the model's stored vector for the token
when a model is present. -/
theorem C6_get_player_vector_sentinel (st : word2vec_model.EmbState) (player_name : String) :
    (st.MODEL = none →
      word2vec_model.get_player_vector st player_name = .intVal 0) ∧
    (∀ m : word2vec_model.W2VModel, st.MODEL = some m →
      word2vec_model.get_player_vector st player_name = .vecVal (m.wv player_name)) := by
  constructor
  · intro h; simp [word2vec_model.get_player_vector, h]
  · intro m h; simp [word2vec_model.get_player_vector, h]

/-- Witness for C6 at concrete states: the empty state yields the integer
sentinel 0, a loaded model yields its stored vector. -/
theorem C6_get_player_vector_sentinel_witness :
    word2vec_model.get_player_vector ⟨none, none, 0⟩ "Messi" = .intVal 0 ∧
    word2vec_model.get_player_vector
      ⟨some ⟨["Messi"], fun _ => [1, 2]⟩, none, 0⟩ "Messi" = .vecVal [1, 2] :=
  ⟨(C6_get_player_vector_sentinel ⟨none, none, 0⟩ "Messi").1 rfl,
   (C6_get_player_vector_sentinel ⟨some ⟨["Messi"], fun _ => [1, 2]⟩, none, 0⟩ "Messi").2 _ rfl⟩

/-- C9: `normalize_vector` is an unguarded elementwise division by
`max_v + abs(min_v)` (no branch of the function avoids the division), and
on the all-zero vector `[0, 0]` that denominator is exactly 0. -/
theorem C9_unguarded_division_by_zero :
    (∀ data_vector : List ℚ, word2vec_model.normalize_vector data_vector =
      data_vector.map (fun x =>
        (x + |word2vec_model.np_min data_vector|) / word2vec_model.normalize_denom data_vector)) ∧
    word2vec_model.normalize_denom [0, 0] = 0 := by
  refine ⟨fun _ => rfl, ?_⟩
  simp [word2vec_model.normalize_denom, word2vec_model.np_max, word2vec_model.np_min]

namespace word2vec_model

theorem foldl_min_le_init (xs : List ℚ) : ∀ b : ℚ, xs.foldl min b ≤ b := by
  induction xs with
  | nil => intro b; exact le_refl b
  | cons x xs ih =>
    intro b
    exact le_trans (ih (min b x)) (min_le_left _ _)

theorem foldl_min_le_mem {xs : List ℚ} {a : ℚ} (h : a ∈ xs) :
    ∀ b : ℚ, xs.foldl min b ≤ a := by
  induction xs with
  | nil => exact absurd h (List.not_mem_nil a)
  | cons x xs ih =>
    intro b
    rcases List.mem_cons.mp h with h1 | h1
    · subst h1
      exact le_trans (foldl_min_le_init xs (min b a)) (min_le_right _ _)
    · exact ih h1 (min b x)

theorem np_min_le_mem {v : List ℚ} {a : ℚ} (h : a ∈ v) : np_min v ≤ a := by
  match v with
  | [] => exact absurd h (List.not_mem_nil a)
  | x :: xs =>
    rcases List.mem_cons.mp h with h1 | h1
    · subst h1
      exact foldl_min_le_init xs a
    · exact foldl_min_le_mem h1 x

theorem foldl_max_init_le (xs : List ℚ) : ∀ b : ℚ, b ≤ xs.foldl max b := by
  induction xs with
  | nil => intro b; exact le_refl b
  | cons x xs ih =>
    intro b
    exact le_trans (le_max_left _ _) (ih (max b x))

theorem foldl_max_mem_le {xs : List ℚ} {a : ℚ} (h : a ∈ xs) :
    ∀ b : ℚ, a ≤ xs.foldl max b := by
  induction xs with
  | nil => exact absurd h (List.not_mem_nil a)
  | cons x xs ih =>
    intro b
    rcases List.mem_cons.mp h with h1 | h1
    · subst h1
      exact le_trans (le_max_right _ _) (foldl_max_init_le xs (max b a))
    · exact ih h1 (max b x)

theorem np_max_mem_le {v : List ℚ} {a : ℚ} (h : a ∈ v) : a ≤ np_max v := by
  match v with
  | [] => exact absurd h (List.not_mem_nil a)
  | x :: xs =>
    rcases List.mem_cons.mp h with h1 | h1
    · subst h1
      exact foldl_max_init_le xs a
    · exact foldl_max_mem_le h1 x

theorem normalize_denom_pos {v : List ℚ} (hd : normalize_denom v ≠ 0) :
    0 < normalize_denom v := by
  rcases v with _ | ⟨x, xs⟩
  · exact absurd (by simp [normalize_denom, np_max, np_min]) hd
  · have h1 : np_min (x :: xs) ≤ np_max (x :: xs) :=
      le_trans (np_min_le_mem (List.mem_cons_self x xs)) (np_max_mem_le (List.mem_cons_self x xs))
    have h2 : 0 ≤ normalize_denom (x :: xs) := by
      have := neg_abs_le (np_min (x :: xs))
      unfold normalize_denom
      linarith
    exact lt_of_le_of_ne h2 (Ne.symm hd)

end word2vec_model

/-- C2 (amended): for a non-degenerate vector (`max_v + abs(min_v) ≠ 0`)
`normalize_vector` produces values in `[0, 1]` and maps every position
holding the maximum to 1; positions holding the minimum are mapped to 0
when the minimum is nonpositive (the claim's unconditional min-to-0 part
fails for all-positive vectors, see the counterexample). -/
theorem C2_normalize_vector_bounds (v : List ℚ)
    (hd : word2vec_model.normalize_denom v ≠ 0) :
    (∀ y ∈ word2vec_model.normalize_vector v, 0 ≤ y ∧ y ≤ 1) ∧
    (∀ i : ℕ, v.get? i = some (word2vec_model.np_min v) → word2vec_model.np_min v ≤ 0 →
      (word2vec_model.normalize_vector v).get? i = some 0) ∧
    (∀ i : ℕ, v.get? i = some (word2vec_model.np_max v) →
      (word2vec_model.normalize_vector v).get? i = some 1) := by
  have hpos : 0 < word2vec_model.normalize_denom v := word2vec_model.normalize_denom_pos hd
  have hmap : word2vec_model.normalize_vector v =
      v.map (fun x => (x + |word2vec_model.np_min v|) / word2vec_model.normalize_denom v) := rfl
  refine ⟨?_, ?_, ?_⟩
  · intro y hy
    rw [hmap] at hy
    rcases List.mem_map.mp hy with ⟨a, ha, rfl⟩
    constructor
    · apply div_nonneg _ (le_of_lt hpos)
      have h1 : word2vec_model.np_min v ≤ a := word2vec_model.np_min_le_mem ha
      have h2 := neg_abs_le (word2vec_model.np_min v)
      linarith
    · apply (div_le_one hpos).mpr
      have h1 : a ≤ word2vec_model.np_max v := word2vec_model.np_max_mem_le ha
      unfold word2vec_model.normalize_denom
      linarith
  · intro i hi hmin
    rw [hmap, List.get?_map, hi]
    have : word2vec_model.np_min v + |word2vec_model.np_min v| = 0 := by
      rw [abs_of_nonpos hmin]; ring
    simp [this]
  · intro i hi
    rw [hmap, List.get?_map, hi]
    have : word2vec_model.np_max v + |word2vec_model.np_min v| =
        word2vec_model.normalize_denom v := rfl
    simp only [Option.map_some']
    rw [this, div_self hd]

/-- Witness for C2 at `v = [-1, 1]`: the denominator is 2, the minimum
position maps to 0 and the maximum position maps to 1. -/
theorem C2_normalize_vector_bounds_witness :
    word2vec_model.normalize_denom [(-1 : ℚ), 1] ≠ 0 ∧
    (word2vec_model.normalize_vector [(-1 : ℚ), 1]).get? 0 = some 0 ∧
    (word2vec_model.normalize_vector [(-1 : ℚ), 1]).get? 1 = some 1 := by
  have hmin : word2vec_model.np_min [(-1 : ℚ), 1] = -1 := by
    norm_num [word2vec_model.np_min, min_def]
  have hmax : word2vec_model.np_max [(-1 : ℚ), 1] = 1 := by
    norm_num [word2vec_model.np_max, max_def]
  have hd : word2vec_model.normalize_denom [(-1 : ℚ), 1] ≠ 0 := by
    rw [word2vec_model.normalize_denom, hmin, hmax]; norm_num
  have h := C2_normalize_vector_bounds [(-1 : ℚ), 1] hd
  exact ⟨hd, h.2.1 0 (by rw [hmin]; rfl) (by rw [hmin]; norm_num),
    h.2.2 1 (by rw [hmax]; rfl)⟩

/-- Counterexample to C2 as stated: the all-positive vector `[1, 2]` is
non-degenerate (`max_v + abs(min_v) = 3 ≠ 0`), position 0 holds the
original minimum, yet `normalize_vector` maps it to `2/3`, not 0. -/
theorem C2_counterexample :
    word2vec_model.normalize_denom [(1 : ℚ), 2] ≠ 0 ∧
    [(1 : ℚ), 2].get? 0 = some (word2vec_model.np_min [(1 : ℚ), 2]) ∧
    (word2vec_model.normalize_vector [(1 : ℚ), 2]).get? 0 = some (2 / 3) ∧
    (2 / 3 : ℚ) ≠ 0 := by
  have hmin : word2vec_model.np_min [(1 : ℚ), 2] = 1 := by
    norm_num [word2vec_model.np_min, min_def]
  have hmax : word2vec_model.np_max [(1 : ℚ), 2] = 2 := by
    norm_num [word2vec_model.np_max, max_def]
  have hd : word2vec_model.normalize_denom [(1 : ℚ), 2] = 3 := by
    rw [word2vec_model.normalize_denom, hmin, hmax]; norm_num
  refine ⟨by rw [hd]; norm_num, by rw [hmin]; rfl, ?_, by norm_num⟩
  have hmap : word2vec_model.normalize_vector [(1 : ℚ), 2] =
      [(1 : ℚ), 2].map (fun x =>
        (x + |word2vec_model.np_min [(1 : ℚ), 2]|) /
          word2vec_model.normalize_denom [(1 : ℚ), 2]) := rfl
  rw [hmap, List.get?_map]
  rw [show [(1 : ℚ), 2].get? 0 = some 1 from rfl]
  rw [hmin, hd]
  norm_num

namespace word2vec_model

theorem ite_lt_eq_min (a c : ℚ) : (if c < a then c else a) = min a c := by
  split
  · exact (min_eq_right (le_of_lt (by assumption))).symm
  · exact (min_eq_left (not_lt.mp (by assumption))).symm

theorem ite_gt_eq_max (a c : ℚ) : (if c > a then c else a) = max a c := by
  split
  · exact (max_eq_right (le_of_lt (by assumption))).symm
  · exact (max_eq_left (not_lt.mp (by assumption))).symm

theorem foldl_min_min (xs : List ℚ) : ∀ a b : ℚ, xs.foldl min (min a b) = min a (xs.foldl min b) := by
  induction xs with
  | nil => intro a b; rfl
  | cons x xs ih =>
    intro a b
    show xs.foldl min (min (min a b) x) = min a (xs.foldl min (min b x))
    rw [min_assoc, ih]

theorem foldl_max_max (xs : List ℚ) : ∀ a b : ℚ, xs.foldl max (max a b) = max a (xs.foldl max b) := by
  induction xs with
  | nil => intro a b; rfl
  | cons x xs ih =>
    intro a b
    show xs.foldl max (max (max a b) x) = max a (xs.foldl max (max b x))
    rw [max_assoc, ih]

theorem foldl_min_cons_ne_nil {v : List ℚ} (hv : v ≠ []) (a : ℚ) :
    v.foldl min a = min a (np_min v) := by
  match v with
  | [] => exact absurd rfl hv
  | x :: xs =>
    show xs.foldl min (min a x) = min a (xs.foldl min x)
    exact foldl_min_min xs a x

theorem foldl_max_cons_ne_nil {v : List ℚ} (hv : v ≠ []) (a : ℚ) :
    v.foldl max a = max a (np_max v) := by
  match v with
  | [] => exact absurd rfl hv
  | x :: xs =>
    show xs.foldl max (max a x) = max a (xs.foldl max x)
    exact foldl_max_max xs a x

theorem nav_scan_go (vecs : List (List ℚ)) (h : ∀ v ∈ vecs, v ≠ []) :
    ∀ a b : ℚ,
      vecs.foldl
        (fun acc vec =>
          ((if np_min vec < acc.1 then np_min vec else acc.1),
           (if np_max vec > acc.2 then np_max vec else acc.2)))
        (a, b) =
      (vecs.join.foldl min a, vecs.join.foldl max b) := by
  induction vecs with
  | nil => intro a b; rfl
  | cons v vs ih =>
    intro a b
    have hv : v ≠ [] := h v (List.mem_cons_self v vs)
    have hvs : ∀ w ∈ vs, w ≠ [] := fun w hw => h w (List.mem_cons_of_mem v hw)
    show vs.foldl _ ((if np_min v < a then np_min v else a),
        (if np_max v > b then np_max v else b)) = _
    rw [ite_lt_eq_min, ite_gt_eq_max, ih hvs]
    show _ = ((v ++ vs.join).foldl min a, (v ++ vs.join).foldl max b)
    rw [List.foldl_append, List.foldl_append,
      foldl_min_cons_ne_nil hv a, foldl_max_cons_ne_nil hv b]

theorem nav_scan_eq (vecs : List (List ℚ)) (h : ∀ v ∈ vecs, v ≠ []) :
    nav_scan vecs = (vecs.join.foldl min 0, vecs.join.foldl max 0) :=
  nav_scan_go vecs h 0 0

end word2vec_model

/-- C8: with a loaded model, `normalize_all_vectors` computes one scalar
minimum and one scalar maximum over every dimension of every vector, both
folds starting from 0 (all-positive data keeps the min at 0, all-negative
data keeps the max at 0), rescales every vector elementwise by
`(v + abs(min)) / (max + abs(min))`, caches the mapping in
`NORMALIZED_VECTORS` and returns it. -/
theorem C8_normalize_all_vectors_global_scalars (st : word2vec_model.EmbState)
    (m : word2vec_model.W2VModel) (hm : st.MODEL = some m)
    (hne : ∀ kv ∈ word2vec_model.get_all_vectors m, kv.2 ≠ []) :
    word2vec_model.normalize_all_vectors st =
      some ({ st with NORMALIZED_VECTORS := some ((word2vec_model.get_all_vectors m).map
          (fun kv => (kv.1, kv.2.map (fun x =>
            (x + |((word2vec_model.get_all_vectors m).map Prod.snd).join.foldl min 0|) /
              (((word2vec_model.get_all_vectors m).map Prod.snd).join.foldl max 0 +
                |((word2vec_model.get_all_vectors m).map Prod.snd).join.foldl min 0|))))) },
        (word2vec_model.get_all_vectors m).map
          (fun kv => (kv.1, kv.2.map (fun x =>
            (x + |((word2vec_model.get_all_vectors m).map Prod.snd).join.foldl min 0|) /
              (((word2vec_model.get_all_vectors m).map Prod.snd).join.foldl max 0 +
                |((word2vec_model.get_all_vectors m).map Prod.snd).join.foldl min 0|))))) := by
  have hj : ∀ v ∈ (word2vec_model.get_all_vectors m).map Prod.snd, v ≠ [] := by
    intro v hv
    rcases List.mem_map.mp hv with ⟨kv, hkv, rfl⟩
    exact hne kv hkv
  have hscan := word2vec_model.nav_scan_eq _ hj
  simp only [word2vec_model.normalize_all_vectors, hm, hscan]

/-- Witness for C8: on a loaded two-player model with vectors `[2, -1]`
and `[3]`, the computed global min/max are `-1` and `3`, so every entry is
rescaled by `(x + 1) / 4`, and the mapping is cached and returned. -/
theorem C8_normalize_all_vectors_global_scalars_witness :
    word2vec_model.normalize_all_vectors
      ⟨some ⟨["a", "b"], fun p => if p = "a" then [2, -1] else [3]⟩, none, 80⟩ =
      some (⟨some ⟨["a", "b"], fun p => if p = "a" then [2, -1] else [3]⟩,
              some [("a", [3 / 4, 0]), ("b", [1])], 80⟩,
            [("a", [3 / 4, 0]), ("b", [1])]) := by
  have h := C8_normalize_all_vectors_global_scalars
    ⟨some ⟨["a", "b"], fun p => if p = "a" then [2, -1] else [3]⟩, none, 80⟩
    ⟨["a", "b"], fun p => if p = "a" then [2, -1] else [3]⟩ rfl
    (by intro kv hkv; fin_cases hkv <;> simp)
  rw [h]
  norm_num [word2vec_model.get_all_vectors, min_def, max_def,
    show ("b" : String) ≠ "a" from by decide]

namespace numeric_model

theorem split_loop_eq {α : Type} [Inhabited α] (rows : List α) (tidx : List ℕ) :
    ∀ (l : List ℕ) (a b : List α),
      l.foldl (split_step rows tidx) (a, b) =
        (a ++ (l.filter (fun i => decide (i ∈ tidx))).map (fun i => rows.getD i default),
         b ++ (l.filter (fun i => ! decide (i ∈ tidx))).map (fun i => rows.getD i default)) := by
  intro l
  induction l with
  | nil => intro a b; simp
  | cons i l ih =>
    intro a b
    show l.foldl (split_step rows tidx) (split_step rows tidx (a, b) i) = _
    by_cases h : i ∈ tidx <;>
      simp [split_step, h, ih, List.filter_cons]

theorem mem_take_range {i m n : ℕ} : i ∈ (List.range n).take m ↔ i < m ∧ i < n := by
  rw [List.take_range]
  simp [List.mem_range, lt_min_iff]

theorem filter_range_lt (n K : ℕ) :
    (List.range n).filter (fun i => decide (i < K)) = List.range (min K n) := by
  induction n with
  | zero => simp
  | succ n ih =>
    rw [List.range_succ, List.filter_append, ih]
    by_cases h : n < K
    · have h1 : min K n = n := by omega
      have h2 : min K (n + 1) = n + 1 := by omega
      rw [h1, h2, List.range_succ]
      simp [h]
    · have h1 : min K n = K := by omega
      have h2 : min K (n + 1) = K := by omega
      rw [h1, h2]
      simp [h]

theorem filter_range_not_lt (n K : ℕ) :
    (List.range n).filter (fun i => ! decide (i < K)) = (List.range n).drop K := by
  induction n with
  | zero => simp
  | succ n ih =>
    rw [List.range_succ, List.filter_append, ih]
    by_cases h : n < K
    · have e1 : (List.range n).drop K = [] :=
        List.drop_eq_nil_of_le (by simp; omega)
      have e2 : (List.range n ++ [n]).drop K = [] :=
        List.drop_eq_nil_of_le (by simp; omega)
      simp [h, e1, e2]
    · rw [List.drop_append_of_le_length (by simp; omega)]
      simp [h]

theorem map_getD_range {α : Type} [Inhabited α] (rows : List α) :
    ∀ K : ℕ, K ≤ rows.length →
      (List.range K).map (fun i => rows.getD i default) = rows.take K := by
  intro K
  induction K with
  | zero => intro _; rfl
  | succ K ih =>
    intro hK
    have hKlen : K < rows.length := Nat.lt_of_succ_le hK
    rw [List.range_succ, List.map_append, ih (Nat.le_of_succ_le hK), List.take_succ]
    simp [List.getD_eq_getElem rows default hKlen, List.getElem?_eq_getElem hKlen]

theorem map_getD_add {α : Type} [Inhabited α] :
    ∀ (K : ℕ) (rows : List α), K ≤ rows.length →
      (List.range (rows.length - K)).map (fun i => rows.getD (K + i) default) =
        rows.drop K := by
  intro K
  induction K with
  | zero =>
    intro rows _
    simp only [Nat.zero_add, Nat.sub_zero, List.drop_zero]
    rw [map_getD_range rows rows.length (le_refl _), List.take_length]
  | succ K ih =>
    intro rows hK
    match rows with
    | [] => simp at hK
    | x :: xs =>
      have hK2 : K ≤ xs.length := by
        simpa using Nat.succ_le_succ_iff.mp (by simpa using hK)
      have hlen : (x :: xs).length - (K + 1) = xs.length - K := by
        simp [List.length_cons]
      have hg : ∀ i : ℕ, (x :: xs).getD (K + 1 + i) default = xs.getD (K + i) default := by
        intro i
        rw [show K + 1 + i = (K + i) + 1 by omega]
        exact List.getD_cons_succ
      rw [hlen]
      simp only [hg]
      rw [ih xs hK2]
      rfl

theorem map_getD_range_drop {α : Type} [Inhabited α] (rows : List α) (K : ℕ)
    (hK : K ≤ rows.length) :
    ((List.range rows.length).drop K).map (fun i => rows.getD i default) = rows.drop K := by
  conv_lhs => rw [show rows.length = K + (rows.length - K) by omega, List.range_add]
  rw [List.drop_left' (List.length_range K), List.map_map]
  have hc : ((fun i => rows.getD i default) ∘ fun x => K + x) =
      fun i => rows.getD (K + i) default := rfl
  rw [hc, map_getD_add K rows hK]

theorem py_int_eq_floor {x : ℚ} (h : 0 ≤ x) : py_int x = ⌊x⌋ := if_pos h

theorem split_data_eq_take_drop {α : Type} [Inhabited α] (rows : List α) ( ratio : ℚ)
    (shuffle : List ℕ → List ℕ) (h1 : ratio ≤ 1) :
    split_data rows ratio shuffle =
      (rows.take (⌊(1 - ratio) * (rows.length : ℚ)⌋).toNat,
       rows.drop (⌊(1 - ratio) * (rows.length : ℚ)⌋).toNat) := by
  have hx : 0 ≤ (1 - ratio) * (rows.length : ℚ) :=
    mul_nonneg (by linarith) (Nat.cast_nonneg _)
  have hbody : split_data rows ratio shuffle =
      (List.range rows.length).foldl
        (split_step rows ((List.range rows.length).take
          (py_slice_end (py_int ((1 - ratio) * (rows.length : ℚ))) rows.length)))
        ([], []) := rfl
  have hslice : py_slice_end (py_int ((1 - ratio) * (rows.length : ℚ))) rows.length =
      (⌊(1 - ratio) * (rows.length : ℚ)⌋).toNat := by
    rw [py_int_eq_floor hx, py_slice_end,
      if_neg (not_lt.mpr (Int.floor_nonneg.mpr hx))]
  rw [hbody, hslice]
  rw [split_loop_eq rows _ (List.range rows.length) [] []]
  set n := rows.length with hn
  set M := (⌊(1 - ratio) * (n : ℚ)⌋).toNat with hM
  have hfc : ∀ i ∈ List.range n, (decide (i ∈ (List.range n).take M)) = decide (i < M) := by
    intro i hi
    rw [List.mem_range] at hi
    rw [decide_eq_decide, mem_take_range]
    exact ⟨fun h => h.1, fun h => ⟨h, hi⟩⟩
  have hfc2 : ∀ i ∈ List.range n,
      (! decide (i ∈ (List.range n).take M)) = ! decide (i < M) := by
    intro i hi
    rw [hfc i hi]
  rw [List.filter_congr hfc, List.filter_congr hfc2, filter_range_lt, filter_range_not_lt]
  by_cases hMn : M ≤ n
  · have hmin : min M n = M := by omega
    rw [hmin, List.nil_append, List.nil_append,
      map_getD_range rows M (hn ▸ hMn), map_getD_range_drop rows M (hn ▸ hMn)]
  · have hmin : min M n = n := by omega
    have hd : (List.range n).drop M = [] :=
      List.drop_eq_nil_of_le (by simp; omega)
    rw [hmin, hd, List.nil_append, List.nil_append,
      map_getD_range rows n (le_of_eq hn.symm)]
    have ht : rows.take n = rows.take M := List.take_eq_take.mpr (by omega)
    have hdr : rows.drop M = [] := List.drop_eq_nil_of_le (by omega)
    rw [ht, hdr]
    rfl

theorem split_data_fifth {α : Type} [Inhabited α] (rows : List α)
    (shuffle : List ℕ → List ℕ) :
    (split_data rows (1 / 5) shuffle).1.length = 4 * rows.length / 5 ∧
    (split_data rows (1 / 5) shuffle).2.length = rows.length - 4 * rows.length / 5 ∧
    (split_data rows (1 / 5) shuffle).1 ++ (split_data rows (1 / 5) shuffle).2 = rows := by
  have h := split_data_eq_take_drop rows (1 / 5) shuffle (by norm_num)
  have e : ((⌊((1 : ℚ) - 1 / 5) * (rows.length : ℚ)⌋).toNat) = 4 * rows.length / 5 := by
    have e1 : ((1 : ℚ) - 1 / 5) * (rows.length : ℚ) =
        ((4 * rows.length : ℕ) : ℚ) / ((5 : ℕ) : ℚ) := by
      push_cast
      ring
    rw [e1, Int.floor_toNat, Nat.floor_div_nat, Nat.floor_natCast]
  rw [h, e]
  refine ⟨?_, ?_, List.take_append_drop _ _⟩
  · rw [List.length_take]
    omega
  · rw [List.length_drop]

end numeric_model

/-- C1: for every dataset and every outcome of the shuffle (modelled by an
arbitrary function on the index list, whose result the code never reads),
`split_data` puts exactly the first `floor((1-ratio)*n)` rows, in original
order, into the training bucket and the remaining rows into the test
bucket; the shuffle has no effect on the result. -/
theorem C1_split_data_first_indices {α : Type} [Inhabited α] (rows : List α) ( ratio : ℚ)
    (shuffle1 shuffle2 : List ℕ → List ℕ) (h0 : 0 ≤ ratio) (h1 : ratio ≤ 1) :
    numeric_model.split_data rows ratio shuffle1 =
        numeric_model.split_data rows ratio shuffle2 ∧
    numeric_model.split_data rows ratio shuffle1 =
      (rows.take (⌊(1 - ratio) * (rows.length : ℚ)⌋).toNat,
       rows.drop (⌊(1 - ratio) * (rows.length : ℚ)⌋).toNat) :=
  ⟨rfl, numeric_model.split_data_eq_take_drop rows ratio shuffle1 h1⟩

/-- Witness for C1: a five-row table with ratio `1/5` is split into the
first four rows and the last row, whether the shuffle reverses the index
list or leaves it alone. -/
theorem C1_split_data_first_indices_witness :
    numeric_model.split_data ([10, 20, 30, 40, 50] : List ℕ) (1 / 5) List.reverse =
        numeric_model.split_data ([10, 20, 30, 40, 50] : List ℕ) (1 / 5) id ∧
    numeric_model.split_data ([10, 20, 30, 40, 50] : List ℕ) (1 / 5) List.reverse =
      ([10, 20, 30, 40], [50]) := by
  have h := C1_split_data_first_indices ([10, 20, 30, 40, 50] : List ℕ) (1 / 5)
    List.reverse id (by norm_num) (by norm_num)
  refine ⟨h.1, h.2.trans ?_⟩
  have e : (⌊((1 : ℚ) - 1 / 5) * (([10, 20, 30, 40, 50] : List ℕ).length : ℚ)⌋).toNat = 4 := by
    norm_num
    rfl
  rw [e]
  decide

/-- C5: `split_data` with the default ratio `0.2` sends exactly
`floor(0.8 * n)` rows to the training bucket and the rest to the test
bucket, every row landing in exactly one bucket in order (indeed
`train ++ test` is the original row list); for a 100-row table the buckets
have sizes 80 and 20. -/
theorem C5_split_data_partition {α : Type} [Inhabited α] (rows : List α)
    (shuffle : List ℕ → List ℕ) :
    (numeric_model.split_data rows (1 / 5) shuffle).1.length = 4 * rows.length / 5 ∧
    (numeric_model.split_data rows (1 / 5) shuffle).2.length =
        rows.length - 4 * rows.length / 5 ∧
    (numeric_model.split_data rows (1 / 5) shuffle).1 ++
        (numeric_model.split_data rows (1 / 5) shuffle).2 = rows ∧
    (numeric_model.split_data (List.range 100) (1 / 5) shuffle).1.length = 80 ∧
    (numeric_model.split_data (List.range 100) (1 / 5) shuffle).2.length = 20 := by
  have h1 := numeric_model.split_data_fifth rows shuffle
  have h2 := numeric_model.split_data_fifth (List.range 100) shuffle
  refine ⟨h1.1, h1.2.1, h1.2.2, ?_, ?_⟩
  · rw [h2.1, List.length_range]
  · rw [h2.2.1, List.length_range]

namespace word2vec_model

theorem hexLenAux_le (fuel : ℕ) : ∀ (n k : ℕ), n < 16 ^ (k + 1) → hexLenAux n fuel ≤ k + 1 := by
  induction fuel with
  | zero => intro n k _; simp [hexLenAux]
  | succ fuel ih =>
    intro n k h
    show (if n < 16 then 1 else hexLenAux (n / 16) fuel + 1) ≤ k + 1
    by_cases h16 : n < 16
    · rw [if_pos h16]; omega
    · rw [if_neg h16]
      match k with
      | 0 =>
        rw [pow_one] at h
        omega
      | k + 1 =>
        have hdiv : n / 16 < 16 ^ (k + 1) := by
          rw [Nat.div_lt_iff_lt_mul (by norm_num)]
          calc n < 16 ^ (k + 2) := h
          _ = 16 ^ (k + 1) * 16 := by ring
        have := ih (n / 16) k hdiv
        omega

theorem hexLen_le_six {n : ℕ} (h : n ≤ 16777215) : hexLen n ≤ 6 := by
  have h16 : (16 : ℕ) ^ 6 = 16777216 := by norm_num
  exact hexLenAux_le n n 5 (by omega)

theorem rgb_of_le {n : ℕ} (h : n ≤ 16777215) :
    (rgb_of n).1 ≤ 255 ∧ (rgb_of n).2.1 ≤ 255 ∧ (rgb_of n).2.2 ≤ 255 := by
  have h6 : max 6 (hexLen n) = 6 := max_eq_left (hexLen_le_six h)
  have e : rgb_of n = (n / 16 ^ 4, n / 16 ^ 2 % 256, n % 16 ^ 2) := by
    show (n / 16 ^ (max 6 (hexLen n) - 2), n / 16 ^ (max 6 (hexLen n) - 4) % 256,
      n % 16 ^ (max 6 (hexLen n) - 4)) = _
    rw [h6]
  rw [e]
  refine ⟨?_, ?_, ?_⟩ <;> dsimp only
  · have h1 : n / 16 ^ 4 ≤ 16777215 / 16 ^ 4 := Nat.div_le_div_right h
    have h2 : 16777215 / 16 ^ 4 = 255 := by norm_num
    omega
  · have h1 : n / 16 ^ 2 % 256 < 256 := Nat.mod_lt _ (by norm_num)
    omega
  · have h1 : n % 16 ^ 2 < 16 ^ 2 := Nat.mod_lt _ (by norm_num)
    have h2 : (16 : ℕ) ^ 2 = 256 := by norm_num
    omega

theorem scale_value_bounds {x : ℚ} (h0 : 0 ≤ x) (h1 : x ≤ 1) :
    0 ≤ scale_value x ∧ scale_value x ≤ 16777215 := by
  have hx : 0 ≤ x * 16777215 := mul_nonneg h0 (by norm_num)
  rw [scale_value, numeric_model.py_int_eq_floor hx]
  constructor
  · exact Int.floor_nonneg.mpr hx
  · have hle : x * 16777215 ≤ (16777215 : ℚ) := by nlinarith
    calc ⌊x * 16777215⌋ ≤ ⌊(16777215 : ℚ)⌋ := Int.floor_le_floor hle
    _ = 16777215 := by norm_num

theorem scale_value_zero : scale_value 0 = 0 := by
  rw [scale_value, py_int]
  norm_num

theorem scale_value_one : scale_value 1 = 16777215 := by
  rw [scale_value, py_int]
  norm_num

theorem rgb_of_zero : rgb_of 0 = (0, 0, 0) := by decide

theorem rgb_of_ffffff : rgb_of 16777215 = (255, 255, 255) := by decide

theorem getD_mem {s : List ℤ} {i : ℕ} (h : i < s.length) : s.getD i 0 ∈ s := by
  rw [List.getD_eq_getElem s 0 h]
  exact List.getElem_mem h

theorem getD_indexOf {s : List ℤ} {a : ℤ} (h : a ∈ s) : s.getD (s.indexOf a) 0 = a := by
  have hlt : s.indexOf a < s.length := List.indexOf_lt_length.mpr h
  have hg := List.indexOf_get hlt
  rw [List.getD_eq_getElem s 0 hlt]
  rwa [List.get_eq_getElem] at hg

theorem indexOf_getD_le {s : List ℤ} : ∀ {i : ℕ}, i < s.length → s.indexOf (s.getD i 0) ≤ i := by
  induction s with
  | nil => intro i hi; simp at hi
  | cons x xs ih =>
    intro i hi
    match i with
    | 0 =>
      rw [List.getD_cons_zero, List.indexOf_cons_self]
    | i + 1 =>
      rw [List.getD_cons_succ]
      by_cases hx : x = xs.getD i 0
      · rw [List.indexOf_cons_eq _ hx]
        omega
      · rw [List.indexOf_cons_ne _ hx]
        have hi2 : i < xs.length := by
          rw [List.length_cons] at hi
          omega
        have := ih hi2
        omega

theorem nodup_indexOf_getD {s : List ℤ} (hnd : s.Nodup) {i : ℕ} (hi : i < s.length) :
    s.indexOf (s.getD i 0) = i := by
  have hmem : s.getD i 0 ∈ s := getD_mem hi
  have hlt : s.indexOf (s.getD i 0) < s.length := List.indexOf_lt_length.mpr hmem
  have hget : s.getD (s.indexOf (s.getD i 0)) 0 = s.getD i 0 := getD_indexOf hmem
  have hfin := (List.Nodup.get_inj_iff hnd
    (i := ⟨s.indexOf (s.getD i 0), hlt⟩) (j := ⟨i, hi⟩)).mp ?_
  · simpa using hfin
  · rw [List.get_eq_getElem, List.get_eq_getElem]
    rw [← List.getD_eq_getElem s 0 hlt, ← List.getD_eq_getElem s 0 hi]
    exact hget

theorem convert_loop_apply (s : List ℤ) :
    ∀ (l : List ℕ) (acc : ℕ → ℕ × ℕ × ℕ) (r : ℕ), (∀ i ∈ l, i < s.length) →
      l.foldl (rgb_write s) acc r =
        if ∃ i ∈ l, s.indexOf (s.getD i 0) = r
        then rgb_of (s.getD r 0).toNat else acc r := by
  intro l
  induction l with
  | nil => intro acc r _; simp
  | cons j l ih =>
    intro acc r hl
    have hj : j < s.length := hl j (List.mem_cons_self j l)
    have hl2 : ∀ i ∈ l, i < s.length := fun i hi => hl i (List.mem_cons_of_mem j hi)
    show l.foldl (rgb_write s) (rgb_write s acc j) r = _
    rw [ih (rgb_write s acc j) r hl2]
    by_cases hex : ∃ i ∈ l, s.indexOf (s.getD i 0) = r
    · have hex2 : ∃ i ∈ j :: l, s.indexOf (s.getD i 0) = r := by
        rcases hex with ⟨i, hi, hr⟩
        exact ⟨i, List.mem_cons_of_mem j hi, hr⟩
      rw [if_pos hex, if_pos hex2]
    · rw [if_neg hex, rgb_write, Function.update_apply]
      by_cases hjr : s.indexOf (s.getD j 0) = r
      · have hex2 : ∃ i ∈ j :: l, s.indexOf (s.getD i 0) = r :=
          ⟨j, List.mem_cons_self j l, hjr⟩
        rw [if_pos hjr.symm, if_pos hex2]
        have hsame : s.getD r 0 = s.getD j 0 := by
          rw [← hjr]
          exact getD_indexOf (getD_mem hj)
        rw [hsame]
      · have hex2 : ¬ ∃ i ∈ j :: l, s.indexOf (s.getD i 0) = r := by
          intro hc
          rcases hc with ⟨i, hi, hr⟩
          rcases List.mem_cons.mp hi with h1 | h1
          · subst h1; exact hjr hr
          · exact hex ⟨i, h1, hr⟩
        rw [if_neg (fun hc => hjr hc.symm), if_neg hex2]

theorem convert_to_rgb_get (v : List ℚ) (r : ℕ) (hr : r < v.length) :
    (convert_to_rgb v).get? r =
      some (if (scaled_list v).indexOf ((scaled_list v).getD r 0) = r
            then rgb_of ((scaled_list v).getD r 0).toNat else (0, 0, 0)) := by
  have hlen : (scaled_list v).length = v.length := List.length_map v scale_value
  have hshow : convert_to_rgb v =
      (List.range v.length).map
        ((List.range v.length).foldl (rgb_write (scaled_list v)) (fun _ => (0, 0, 0))) := rfl
  rw [hshow, List.get?_map, List.get?_range hr, Option.map_some']
  congr 1
  rw [convert_loop_apply (scaled_list v) (List.range v.length) _ r
    (fun i hi => by rw [hlen]; exact List.mem_range.mp hi)]
  have hiff : (∃ i ∈ List.range v.length,
      (scaled_list v).indexOf ((scaled_list v).getD i 0) = r)
      ↔ (scaled_list v).indexOf ((scaled_list v).getD r 0) = r := by
    constructor
    · rintro ⟨i, hi, hir⟩
      have hi2 : i < (scaled_list v).length := by
        rw [hlen]
        exact List.mem_range.mp hi
      rw [← hir, getD_indexOf (getD_mem hi2)]
    · intro h
      exact ⟨r, List.mem_range.mpr hr, h⟩
  rw [if_congr hiff rfl rfl]

end word2vec_model

/-- C7 (amended): for an input vector with all values in `[0, 1]`, every
channel of the output matrix is an integer (the model uses `ℕ`) in
`[0, 255]`; an element equal to 0.0 yields the row `(0, 0, 0)`; an element
equal to 1.0 (scaled value 16777215, hex `ffffff`) yields `(255, 255, 255)`
at the row of the FIRST position whose value scales to 16777215 (the row of
a later duplicate position keeps the zero triple, see the counterexample). -/
theorem C7_convert_to_rgb_channels (v : List ℚ) (h : ∀ x ∈ v, 0 ≤ x ∧ x ≤ 1) :
    (∀ t ∈ word2vec_model.convert_to_rgb v, t.1 ≤ 255 ∧ t.2.1 ≤ 255 ∧ t.2.2 ≤ 255) ∧
    (∀ i : ℕ, v.get? i = some 0 →
      (word2vec_model.convert_to_rgb v).get? i = some (0, 0, 0)) ∧
    (∀ i : ℕ, v.get? i = some 1 →
      (word2vec_model.convert_to_rgb v).get?
          ((word2vec_model.scaled_list v).indexOf (word2vec_model.scale_value 1)) =
        some (255, 255, 255)) := by
  have hlen : (word2vec_model.scaled_list v).length = v.length :=
    List.length_map v word2vec_model.scale_value
  refine ⟨?_, ?_, ?_⟩
  · intro t ht
    have hC : word2vec_model.convert_to_rgb v =
        (List.range v.length).map
          ((List.range v.length).foldl (word2vec_model.rgb_write
            (word2vec_model.scaled_list v)) (fun _ => (0, 0, 0))) := rfl
    rw [hC] at ht
    rcases List.mem_map.mp ht with ⟨r, hr, rfl⟩
    have hrlt : r < v.length := List.mem_range.mp hr
    rw [word2vec_model.convert_loop_apply (word2vec_model.scaled_list v)
      (List.range v.length) _ r (fun i hi => by rw [hlen]; exact List.mem_range.mp hi)]
    split
    · have hrs : r < (word2vec_model.scaled_list v).length := by rw [hlen]; exact hrlt
      have hgd : (word2vec_model.scaled_list v).getD r 0 =
          word2vec_model.scale_value (v.getD r 0) := by
        have hsl : word2vec_model.scaled_list v = v.map word2vec_model.scale_value := rfl
        rw [List.getD_eq_getElem _ 0 hrs, List.getD_eq_getElem v 0 hrlt]
        simp only [hsl, List.getElem_map]
      have hvmem : v.getD r 0 ∈ v := by
        rw [List.getD_eq_getElem v 0 hrlt]
        exact List.getElem_mem hrlt
      have hb := word2vec_model.scale_value_bounds (h _ hvmem).1 (h _ hvmem).2
      have htn : ((word2vec_model.scaled_list v).getD r 0).toNat ≤ 16777215 := by
        rw [hgd]
        omega
      exact word2vec_model.rgb_of_le htn
    · simp
  · intro i hi
    have hilt : i < v.length := by
      rcases List.get?_eq_some.mp hi with ⟨hlt, _⟩
      exact hlt
    rw [word2vec_model.convert_to_rgb_get v i hilt]
    have hgd : (word2vec_model.scaled_list v).getD i 0 = 0 := by
      have hsv : (word2vec_model.scaled_list v).get? i = some 0 := by
        rw [word2vec_model.scaled_list, List.get?_map, hi, Option.map_some',
          word2vec_model.scale_value_zero]
      rcases List.get?_eq_some.mp hsv with ⟨hlt2, hget⟩
      rw [List.getD_eq_getElem _ 0 hlt2]
      rw [List.get_eq_getElem] at hget
      exact hget
    rw [hgd]
    split
    · rw [show ((0 : ℤ)).toNat = 0 from rfl, word2vec_model.rgb_of_zero]
    · rfl
  · intro i hi
    rw [word2vec_model.scale_value_one]
    have hs : (word2vec_model.scaled_list v).get? i = some 16777215 := by
      rw [word2vec_model.scaled_list, List.get?_map, hi, Option.map_some',
        word2vec_model.scale_value_one]
    have hmem : (16777215 : ℤ) ∈ word2vec_model.scaled_list v := by
      rcases List.get?_eq_some.mp hs with ⟨hlt2, hget⟩
      rw [← hget]
      exact List.get_mem _ _ _
    have hjlt : (word2vec_model.scaled_list v).indexOf (16777215 : ℤ) <
        (word2vec_model.scaled_list v).length := List.indexOf_lt_length.mpr hmem
    have hjv : (word2vec_model.scaled_list v).indexOf (16777215 : ℤ) < v.length := by
      rwa [hlen] at hjlt
    rw [word2vec_model.convert_to_rgb_get v _ hjv, word2vec_model.getD_indexOf hmem,
      if_pos rfl, show ((16777215 : ℤ)).toNat = 16777215 from rfl,
      word2vec_model.rgb_of_ffffff]

/-- Witness for C7 at `v = [0, 1]`: row 0 is `(0, 0, 0)` and row 1 (the
first and only position scaling to `ffffff`) is `(255, 255, 255)`. -/
theorem C7_convert_to_rgb_channels_witness :
    (word2vec_model.convert_to_rgb [(0 : ℚ), 1]).get? 0 = some (0, 0, 0) ∧
    (word2vec_model.convert_to_rgb [(0 : ℚ), 1]).get? 1 = some (255, 255, 255) := by
  have h := C7_convert_to_rgb_channels [(0 : ℚ), 1]
    (by intro x hx; fin_cases hx <;> norm_num)
  refine ⟨h.2.1 0 rfl, ?_⟩
  have h3 := h.2.2 1 rfl
  have e2 : word2vec_model.scaled_list [(0 : ℚ), 1] = [0, 16777215] := by
    rw [word2vec_model.scaled_list]
    simp [word2vec_model.scale_value_zero, word2vec_model.scale_value_one]
  have e : (word2vec_model.scaled_list [(0 : ℚ), 1]).indexOf
      (word2vec_model.scale_value 1) = 1 := by
    rw [word2vec_model.scale_value_one, e2]
    decide
  rwa [e] at h3

/-- Counterexample to C7 as stated: in `[1, 1]` both positions hold 1.0,
all values are in `[0, 1]`, yet output row 1 is `(0, 0, 0)` rather than
`(255, 255, 255)`: the write for the duplicate lands on row 0. -/
theorem C7_counterexample :
    (∀ x ∈ [(1 : ℚ), 1], 0 ≤ x ∧ x ≤ 1) ∧
    [(1 : ℚ), 1].get? 1 = some 1 ∧
    (word2vec_model.convert_to_rgb [(1 : ℚ), 1]).get? 1 = some (0, 0, 0) := by
  refine ⟨by intro x hx; fin_cases hx <;> norm_num, rfl, ?_⟩
  rw [word2vec_model.convert_to_rgb_get [(1 : ℚ), 1] 1 (by simp)]
  have e2 : word2vec_model.scaled_list [(1 : ℚ), 1] = [16777215, 16777215] := by
    rw [word2vec_model.scaled_list]
    simp [word2vec_model.scale_value_one]
  rw [e2, if_neg (by decide)]

/-- C10 (amended): when two distinct positions scale to the same 24-bit
integer, both elements' identical RGB triples are written to the row of the
first occurrence of that value and the later duplicate position's row is
never written, staying `(0, 0, 0)`; output row `i` holds the RGB encoding
of input element `i` WHENEVER the scaled values are pairwise distinct (the
claim's converse "only when" fails: on an all-duplicate vector scaling to
0 every row still coincides with its element's encoding, see the
counterexample). -/
theorem C10_duplicate_scaled_rows (v : List ℚ) :
    (∀ i j : ℕ, i < j → j < v.length →
      (word2vec_model.scaled_list v).getD i 0 = (word2vec_model.scaled_list v).getD j 0 →
      (word2vec_model.convert_to_rgb v).get?
          ((word2vec_model.scaled_list v).indexOf ((word2vec_model.scaled_list v).getD j 0)) =
        some (word2vec_model.rgb_of ((word2vec_model.scaled_list v).getD j 0).toNat) ∧
      (word2vec_model.convert_to_rgb v).get? j = some (0, 0, 0)) ∧
    ((word2vec_model.scaled_list v).Nodup → ∀ i : ℕ, i < v.length →
      (word2vec_model.convert_to_rgb v).get? i =
        some (word2vec_model.rgb_of ((word2vec_model.scaled_list v).getD i 0).toNat)) := by
  have hlen : (word2vec_model.scaled_list v).length = v.length :=
    List.length_map v word2vec_model.scale_value
  constructor
  · intro i j hij hj hdup
    have hjs : j < (word2vec_model.scaled_list v).length := by rw [hlen]; exact hj
    have his : i < (word2vec_model.scaled_list v).length := by omega
    have hmem : (word2vec_model.scaled_list v).getD j 0 ∈ word2vec_model.scaled_list v :=
      word2vec_model.getD_mem hjs
    have hidxle : (word2vec_model.scaled_list v).indexOf
        ((word2vec_model.scaled_list v).getD j 0) ≤ i := by
      rw [← hdup]
      exact word2vec_model.indexOf_getD_le his
    have hidxv : (word2vec_model.scaled_list v).indexOf
        ((word2vec_model.scaled_list v).getD j 0) < v.length := by
      have := List.indexOf_lt_length.mpr hmem
      omega
    constructor
    · rw [word2vec_model.convert_to_rgb_get v _ hidxv,
        word2vec_model.getD_indexOf hmem, if_pos rfl]
    · rw [word2vec_model.convert_to_rgb_get v j hj,
        if_neg (by omega :
          ¬ (word2vec_model.scaled_list v).indexOf
              ((word2vec_model.scaled_list v).getD j 0) = j)]
  · intro hnd i hi
    have his : i < (word2vec_model.scaled_list v).length := by rw [hlen]; exact hi
    rw [word2vec_model.convert_to_rgb_get v i hi,
      if_pos (word2vec_model.nodup_indexOf_getD hnd his)]

/-- Witness for C10: in `[1, 1]` the duplicate scaled value `ffffff` is
written to row 0 and row 1 stays zero; in the duplicate-free `[0, 1]` row 1
holds its own element's encoding. -/
theorem C10_duplicate_scaled_rows_witness :
    (word2vec_model.convert_to_rgb [(1 : ℚ), 1]).get? 0 = some (255, 255, 255) ∧
    (word2vec_model.convert_to_rgb [(1 : ℚ), 1]).get? 1 = some (0, 0, 0) ∧
    (word2vec_model.convert_to_rgb [(0 : ℚ), 1]).get? 1 = some (255, 255, 255) := by
  have e1 : word2vec_model.scaled_list [(1 : ℚ), 1] = [16777215, 16777215] := by
    rw [word2vec_model.scaled_list]
    simp [word2vec_model.scale_value_one]
  have e2 : word2vec_model.scaled_list [(0 : ℚ), 1] = [0, 16777215] := by
    rw [word2vec_model.scaled_list]
    simp [word2vec_model.scale_value_zero, word2vec_model.scale_value_one]
  have hA := (C10_duplicate_scaled_rows [(1 : ℚ), 1]).1 0 1 (by norm_num) (by simp)
    (by rw [e1]; decide)
  rcases hA with ⟨hA1, hA2⟩
  rw [e1] at hA1
  have i1 : ([(16777215 : ℤ), 16777215].indexOf ([(16777215 : ℤ), 16777215].getD 1 0)) = 0 := by
    decide
  have g1 : (([(16777215 : ℤ), 16777215].getD 1 0)).toNat = 16777215 := by decide
  rw [i1, g1, word2vec_model.rgb_of_ffffff] at hA1
  have hB := (C10_duplicate_scaled_rows [(0 : ℚ), 1]).2 (by rw [e2]; decide) 1 (by simp)
  rw [e2] at hB
  have g2 : (([(0 : ℤ), 16777215].getD 1 0)).toNat = 16777215 := by decide
  rw [g2, word2vec_model.rgb_of_ffffff] at hB
  exact ⟨hA1, hA2, hB⟩

/-- Counterexample to C10 as stated ("row i holds the encoding of element i
ONLY when the scaled values are pairwise distinct"): the all-zero vector
`[0, 0]` has duplicate scaled values, yet every output row equals its own
element's RGB encoding, because the unwritten duplicate row `(0, 0, 0)`
coincides with the encoding of the scaled value 0. -/
theorem C10_counterexample :
    ¬ (word2vec_model.scaled_list [(0 : ℚ), 0]).Nodup ∧
    (∀ i : ℕ, i < ([(0 : ℚ), 0]).length →
      (word2vec_model.convert_to_rgb [(0 : ℚ), 0]).get? i =
        some (word2vec_model.rgb_of
          ((word2vec_model.scaled_list [(0 : ℚ), 0]).getD i 0).toNat)) := by
  have e : word2vec_model.scaled_list [(0 : ℚ), 0] = [0, 0] := by
    rw [word2vec_model.scaled_list]
    simp [word2vec_model.scale_value_zero]
  constructor
  · rw [e]
    decide
  · intro i hi
    rw [word2vec_model.convert_to_rgb_get [(0 : ℚ), 0] i hi, e]
    have h2 : i = 0 ∨ i = 1 := by
      have : i < 2 := by simpa using hi
      omega
    rcases h2 with rfl | rfl <;> decide
